import Mathlib

/-!
Shallow embedding of the `smap` concurrent map library (Go).

A Go `map[K]V` is modelled as an association list with pairwise-distinct
keys (the `WF` predicate below); the nondeterministic iteration order of a
Go map corresponds to the list order of the association list, which is left
arbitrary in all general theorems.  Nil-able Go slices are modelled as
`Option (List _)` so that `nil` (the closed-iterator marker) is
distinguishable from an empty slice.  Go zero values are modelled with
`Inhabited.default`.  `sort.SliceStable` with a less-function `f` is
modelled as `List.mergeSort` with the non-strict order `fun a b => !f b a`,
which is the stable sort determined by `f`.
-/

set_option linter.unusedSectionVars false
set_option linter.unusedVariables false
set_option linter.unnecessarySeqFocus false

namespace Smap

variable {K V : Type} [DecidableEq K] [Inhabited K] [Inhabited V]

/-- The backing store of `sMap`: a Go `map[K]V` as an association list. -/
abbrev Store (K V : Type) := List (K × V)

/-- Go map read, boolean form: `v, ok := m[k]` without the value. -/
def lookup (m : Store K V) (k : K) : Option V :=
  (m.find? (fun p => decide (p.1 = k))).map (fun p => p.2)

/-- Key-presence test of the Go map: the ok of a map read. -/
def hasKey (m : Store K V) (k : K) : Bool :=
  (lookup m k).isSome

/-- Go map write `m[k] = v`: replace in place if the key exists, else append. -/
def setEntry (m : Store K V) (k : K) (v : V) : Store K V :=
  match m with
  | [] => [(k, v)]
  | (k0, v0) :: rest =>
      if k0 = k then (k, v) :: rest else (k0, v0) :: setEntry rest k v

/-- Go `delete(m, k)`. -/
def deleteKey (m : Store K V) (k : K) : Store K V :=
  m.filter (fun p => decide (p.1 ≠ k))

/-- Go map read with zero value: `v, ok := m[k]` (`v = default` when absent). -/
def mapRead (m : Store K V) (k : K) : V × Bool :=
  match lookup m k with
  | some v => (v, true)
  | none => (default, false)

/-- Well-formedness of a store: a Go map has pairwise-distinct keys. -/
def WF (m : Store K V) : Prop :=
  (m.map (fun p => p.1)).Nodup

/-- Embedding of `sMap.Len`. -/
def Len (m : Store K V) : Nat :=
  m.length

/-- Embedding of `sMap.Get`. -/
def Get (m : Store K V) (k : K) : V × Bool :=
  mapRead m k

/-- Embedding of `sMap.Set`. -/
def Set (m : Store K V) (k : K) (v : V) : Store K V :=
  setEntry m k v

/-- Embedding of `sMap.CAS`: returns whether the insert happened, and the new store. -/
def CAS (m : Store K V) (k : K) (v : V) : Bool × Store K V :=
  if hasKey m k then (false, m) else (true, setEntry m k v)

/-- Embedding of `sMap.Delete` over its variadic key list. -/
def Delete (m : Store K V) (ks : List K) : Store K V :=
  ks.foldl (fun acc k => deleteKey acc k) m

/-- Embedding of `sMap.Keys`: the keys in map-iteration order. -/
def Keys (m : Store K V) : List K :=
  m.map (fun p => p.1)

/-- The loop body of `sMap.Merge`: skip when not overwriting and present. -/
def mergeStep (overwrite : Bool) (acc : Store K V) (p : K × V) : Store K V :=
  if overwrite = false ∧ hasKey acc p.1 = true then acc else setEntry acc p.1 p.2

/-- The `for k, v := range m` loop of `sMap.Merge`. -/
def mergeLoop (dst src : Store K V) (overwrite : Bool) : Store K V :=
  src.foldl (mergeStep overwrite) dst

/-- Embedding of `sMap.Merge` (the early return on an empty source included). -/
def Merge (dst src : Store K V) (overwrite : Bool) : Store K V :=
  if src.length = 0 then dst else mergeLoop dst src overwrite

/-- Embedding of `New`: fresh empty store, then overwrite-merge of the initial map. -/
def New (init : Store K V) : Store K V :=
  Merge [] init true

/-- Embedding of `sMap.Clone` as a store transformation: `New(s.m)`. -/
def Clone (m : Store K V) : Store K V :=
  New m

/-- The copying loop of `sMap.Raw`: insert every entry into a fresh map. -/
def Raw (m : Store K V) : Store K V :=
  m.foldl (fun acc p => setEntry acc p.1 p.2) []

/-- Embedding of `sMap.Filter`: insert into a fresh map the entries accepted by `cb`. -/
def Filter (m : Store K V) (cb : K → V → Bool) : Store K V :=
  m.foldl (fun acc p => if cb p.1 p.2 then setEntry acc p.1 p.2 else acc) []

/-! ### Heap model

Go's `sMap` values are heap-allocated and mutated through pointers, so
aliasing (does `Clone` share the backing map, or copy it?) is observable.
The heap is a list of backing stores; a reference is an index.  `New`
allocates a fresh store at a fresh reference and seeds it with an
overwrite-merge, exactly as the constructor does. -/

structure Heap (K V : Type) where
  stores : List (Store K V)

/-- Dereference: the backing store at reference `r`. -/
def getStore (h : Heap K V) (r : Nat) : Store K V :=
  h.stores.getD r []

/-- Heap-level `New(init)`: allocate a fresh store seeded by `Merge(init, true)`. -/
def newRef (h : Heap K V) (init : Store K V) : Nat × Heap K V :=
  (h.stores.length, ⟨h.stores ++ [New init]⟩)

/-- Heap-level `s.Set(k, v)` on the map at reference `r`. -/
def setAt (h : Heap K V) (r : Nat) (k : K) (v : V) : Heap K V :=
  ⟨h.stores.set r (Set (getStore h r) k v)⟩

/-- Heap-level `s.Delete(ks...)` on the map at reference `r`. -/
def deleteAt (h : Heap K V) (r : Nat) (ks : List K) : Heap K V :=
  ⟨h.stores.set r (Delete (getStore h r) ks)⟩

/-- Heap-level `s.Clone()`: passes the backing store of `r` to `New`, which copies it
entry by entry into a freshly allocated store. -/
def cloneAt (h : Heap K V) (r : Nat) : Nat × Heap K V :=
  newRef h (getStore h r)

/-- Heap-level `s.Get(k)` on the map at reference `r`. -/
def getAt (h : Heap K V) (r : Nat) (k : K) : V × Bool :=
  Get (getStore h r) k

/-- Heap-level `s.Len()` on the map at reference `r`. -/
def lenAt (h : Heap K V) (r : Nat) : Nat :=
  Len (getStore h r)

/-- A mutation applied to a map reference: `Set` or `Delete`. -/
inductive MOp (K V : Type) where
  | set (k : K) (v : V)
  | del (ks : List K)

def applyOp (h : Heap K V) (r : Nat) : MOp K V → Heap K V
  | .set k v => setAt h r k v
  | .del ks => deleteAt h r ks

/-- A sequence of `Set`/`Delete` operations applied to reference `r`. -/
def applyOps (h : Heap K V) (r : Nat) (ops : List (MOp K V)) : Heap K V :=
  ops.foldl (fun hh op => applyOp hh r op) h

/-! ### Iterators

`sMapIter` is the live iterator, `rIter` the snapshot iterator.  A Go
nil-able slice is an `Option (List _)`: `Close` sets `keys` to `none`
(Go `nil`), which is what `Key`/`Val` test.  Go zero values are
`default`. -/

structure sMapIter (K V : Type) where
  i : Nat
  keys : Option (List K)
  k : K
  v : V
  m : Store K V

structure rIter (K V : Type) where
  i : Nat
  keys : Option (List K)
  k : K
  v : V
  m : Store K V

/-- Embedding of `sort.SliceStable` with less-function `f`: the stable sort of `l`
determined by `f`, i.e. merge sort by the non-strict order `!f b a`. -/
def sliceStable (f : K → K → Bool) (l : List K) : List K :=
  l.mergeSort (fun a b => !f b a)

/-- The optional-comparator sorting step shared by `Iter` and `RIter`. -/
def sortKeys (f : Option (K → K → Bool)) (l : List K) : List K :=
  match f with
  | none => l
  | some f => sliceStable f l

/-- Embedding of `sMap.Iter`: capture the current keys (optionally stable-sorted) and
keep a link to the still-locked backing store.  Lock bookkeeping is
modelled separately (`IterL`). -/
def Iter (s : Store K V) (f : Option (K → K → Bool)) : sMapIter K V :=
  { i := 0, keys := some (sortKeys f (Keys s)), k := default, v := default, m := s }

/-- Embedding of `sMap.RIter`: copy the backing store (`Raw`), capture the copied keys
(optionally stable-sorted); no link to the source remains. -/
def RIter (s : Store K V) (f : Option (K → K → Bool)) : rIter K V :=
  let cpy := Raw s
  { i := 0, keys := some (sortKeys f (Keys cpy)), k := default, v := default, m := cpy }

def sMapIter.Next (it : sMapIter K V) : Bool × sMapIter K V :=
  if it.i ≥ (it.keys.getD []).length then (false, it)
  else
    let k := (it.keys.getD []).getD it.i default
    (true, { it with k := k, v := (mapRead it.m k).1, i := it.i + 1 })

def sMapIter.Key (it : sMapIter K V) : K × Option String :=
  match it.keys with
  | none => (default, some "iterator closed")
  | some _ => (it.k, none)

def sMapIter.Val (it : sMapIter K V) : V × Option String :=
  match it.keys with
  | none => (default, some "iterator closed")
  | some _ => (it.v, none)

/-- Embedding of `sMapIter.Close`: clear all fields (the lock release is modelled in
`CloseL`). -/
def sMapIter.Close (it : sMapIter K V) : sMapIter K V :=
  { i := 0, keys := none, k := default, v := default, m := [] }

def rIter.Next (r : rIter K V) : Bool × rIter K V :=
  if r.i ≥ (r.keys.getD []).length then (false, r)
  else
    let k := (r.keys.getD []).getD r.i default
    (true, { r with k := k, v := (mapRead r.m k).1, i := r.i + 1 })

def rIter.Prev (r : rIter K V) : Bool × rIter K V :=
  if r.i = 0 then (false, r)
  else
    let k := (r.keys.getD []).getD (r.i - 1) default
    (true, { r with i := r.i - 1, k := k, v := (mapRead r.m k).1 })

def rIter.Rewind (r : rIter K V) : Bool × rIter K V :=
  let r' := { r with i := 0 }
  if r'.i ≥ (r'.keys.getD []).length then (false, r') else (true, r')

def rIter.End (r : rIter K V) : Bool × rIter K V :=
  rIter.Prev { r with i := (r.keys.getD []).length }

def rIter.Key (r : rIter K V) : K × Option String :=
  match r.keys with
  | none => (default, some "iterator closed")
  | some _ => (r.k, none)

def rIter.Val (r : rIter K V) : V × Option String :=
  match r.keys with
  | none => (default, some "iterator closed")
  | some _ => (r.v, none)

def rIter.Close (r : rIter K V) : rIter K V :=
  { i := 0, keys := none, k := default, v := default, m := [] }

/-! ### Traversal harnesses

`runNexts n` performs up to `n` `Next` calls, recording the element
(`Key`/`Val` payload) after each successful one — the shape of every
`for it.Next()` loop in the library's tests. -/

def sMapIter.runNexts (it : sMapIter K V) : Nat → List (K × V) × sMapIter K V
  | 0 => ([], it)
  | n + 1 =>
      let step := it.Next
      if step.1 then
        let rest := step.2.runNexts n
        ((step.2.k, step.2.v) :: rest.1, rest.2)
      else ([], step.2)

def rIter.runNexts (r : rIter K V) : Nat → List (K × V) × rIter K V
  | 0 => ([], r)
  | n + 1 =>
      let step := r.Next
      if step.1 then
        let rest := step.2.runNexts n
        ((step.2.k, step.2.v) :: rest.1, rest.2)
      else ([], step.2)

/-- Full traversal of a live iterator: all elements `Next` can reach. -/
def sMapIter.traverse (it : sMapIter K V) : List (K × V) :=
  (it.runNexts (it.keys.getD []).length).1

/-- Full traversal of a snapshot iterator. -/
def rIter.traverse (r : rIter K V) : List (K × V) :=
  (r.runNexts (r.keys.getD []).length).1

/-! ### Lock model

`sync.RWMutex` as a counting reader / boolean writer state.  Acquisition
is blocking in Go; here an operation that would block is `none`. -/

structure RWLock where
  readers : Nat
  writer : Bool

def canRLock (l : RWLock) : Bool := !l.writer

def canWLock (l : RWLock) : Bool := decide (l.readers = 0) && !l.writer

def rLock (l : RWLock) : RWLock := { l with readers := l.readers + 1 }

def rUnlock (l : RWLock) : RWLock := { l with readers := l.readers - 1 }

/-- An `sMap` with its `mu` lock made explicit. -/
structure LMap (K V : Type) where
  lock : RWLock
  store : Store K V

/-- Lock-level `Iter`: acquires read mode at construction. -/
def IterL (s : LMap K V) (f : Option (K → K → Bool)) : sMapIter K V × LMap K V :=
  (Iter s.store f, { s with lock := rLock s.lock })

/-- Lock-level `sMapIter.Close`: releases the read lock. -/
def CloseL (s : LMap K V) : LMap K V :=
  { s with lock := rUnlock s.lock }

/-- Lock-level `Set`: needs the write lock; `none` when it would block. -/
def SetL (s : LMap K V) (k : K) (v : V) : Option (LMap K V) :=
  if canWLock s.lock then some { s with store := Set s.store k v } else none

/-- Lock-level `CAS`: needs the write lock. -/
def CASL (s : LMap K V) (k : K) (v : V) : Option (Bool × LMap K V) :=
  if canWLock s.lock then
    some ((CAS s.store k v).1, { s with store := (CAS s.store k v).2 })
  else none

/-- Lock-level `Delete`: needs the write lock. -/
def DeleteL (s : LMap K V) (ks : List K) : Option (LMap K V) :=
  if canWLock s.lock then some { s with store := Delete s.store ks } else none

/-- Lock-level `Merge`: returns without locking on an empty source, otherwise needs
the write lock. -/
def MergeL (s : LMap K V) (src : Store K V) (ow : Bool) : Option (LMap K V) :=
  if src.length = 0 then some s
  else if canWLock s.lock then some { s with store := Merge s.store src ow } else none

/-- Lock-level `Get`: needs only the read lock. -/
def GetL (s : LMap K V) (k : K) : Option (V × Bool) :=
  if canRLock s.lock then some (Get s.store k) else none

/-- Lock-level `Len`: needs only the read lock. -/
def LenL (s : LMap K V) : Option Nat :=
  if canRLock s.lock then some (Len s.store) else none

/-- Iterate `n` successive `Next` calls on a snapshot iterator. -/
def rIter.nextN (r : rIter K V) : Nat → rIter K V
  | 0 => r
  | n + 1 => ((r.nextN n).Next).2

/-- Lock-level `Filter`: read-locked, the map itself untouched. -/
def FilterL (s : LMap K V) (cb : K → V → Bool) : Option (Store K V × LMap K V) :=
  if canRLock s.lock then some (Filter s.store cb, s) else none

/-- A strict weak ordering, the contract `sort.SliceStable` comparators
must satisfy: irreflexive, transitive, with transitive incomparability. -/
def SWO (f : K → K → Bool) : Prop :=
  (∀ a, f a a = false) ∧
  (∀ a b c, f a b = true → f b c = true → f a c = true) ∧
  (∀ a b c, f a b = false → f b a = false → f b c = false → f c b = false →
    (f a c = false ∧ f c a = false))

/-! ### Basic lemmas about the store operations -/

theorem lookup_nil (k : K) : lookup ([] : Store K V) k = none := rfl

theorem lookup_cons (k0 : K) (v0 : V) (rest : Store K V) (k : K) :
    lookup ((k0, v0) :: rest) k = if k0 = k then some v0 else lookup rest k := by
  by_cases h : k0 = k <;> simp [lookup, List.find?, h]

theorem lookup_setEntry_self (m : Store K V) (k : K) (v : V) :
    lookup (setEntry m k v) k = some v := by
  induction m with
  | nil => simp [setEntry, lookup_cons]
  | cons p rest ih =>
      obtain ⟨k0, v0⟩ := p
      by_cases h : k0 = k
      · simp [setEntry, h, lookup_cons]
      · simp [setEntry, h, lookup_cons, ih]

theorem lookup_setEntry_ne (m : Store K V) (k k' : K) (v : V) (h : k' ≠ k) :
    lookup (setEntry m k v) k' = lookup m k' := by
  induction m with
  | nil => simp [setEntry, lookup_cons, lookup_nil, Ne.symm h]
  | cons p rest ih =>
      obtain ⟨k0, v0⟩ := p
      by_cases hk : k0 = k
      · subst hk
        simp [setEntry, lookup_cons, Ne.symm h]
      · simp [setEntry, hk, lookup_cons, ih]

theorem keys_setEntry (m : Store K V) (k : K) (v : V) (h : hasKey m k = false) :
    Keys (setEntry m k v) = Keys m ++ [k] := by
  induction m with
  | nil => simp [setEntry, Keys]
  | cons p rest ih =>
      obtain ⟨k0, v0⟩ := p
      have hne : k0 ≠ k := by
        intro hk
        simp [hasKey, lookup_cons, hk] at h
      have hrest : hasKey rest k = false := by
        simpa [hasKey, lookup_cons, hne] using h
      have h2 := ih hrest
      simp only [Keys] at h2
      simp [setEntry, hne, Keys, h2]

theorem setEntry_of_absent (m : Store K V) (k : K) (v : V) (h : hasKey m k = false) :
    setEntry m k v = m ++ [(k, v)] := by
  induction m with
  | nil => simp [setEntry]
  | cons p rest ih =>
      obtain ⟨k0, v0⟩ := p
      have hne : k0 ≠ k := by
        intro hk
        simp [hasKey, lookup_cons, hk] at h
      have hrest : hasKey rest k = false := by
        simpa [hasKey, lookup_cons, hne] using h
      simp [setEntry, hne, ih hrest]

theorem hasKey_iff_mem_keys (m : Store K V) (k : K) :
    hasKey m k = true ↔ k ∈ Keys m := by
  induction m with
  | nil => simp [hasKey, lookup_nil, Keys]
  | cons p rest ih =>
      obtain ⟨k0, v0⟩ := p
      by_cases h : k0 = k
      · simp [hasKey, lookup_cons, h, Keys]
      · simpa [hasKey, lookup_cons, h, Keys, Ne.symm h] using ih

theorem lookup_deleteKey (m : Store K V) (k k' : K) :
    lookup (deleteKey m k) k' = if k' = k then none else lookup m k' := by
  induction m with
  | nil => simp [deleteKey, lookup_nil]
  | cons p rest ih =>
      obtain ⟨k0, v0⟩ := p
      by_cases h0 : k0 = k
      · have hd : deleteKey ((k0, v0) :: rest) k = deleteKey rest k := by
          simp [deleteKey, h0]
        rw [hd, ih, lookup_cons]
        by_cases h1 : k' = k
        · simp [h1]
        · have h2 : k0 ≠ k' := by
            rw [h0]
            exact fun hh => h1 hh.symm
          simp [h1, h2]
      · have hd : deleteKey ((k0, v0) :: rest) k = (k0, v0) :: deleteKey rest k := by
          simp [deleteKey, h0]
        rw [hd, lookup_cons, ih, lookup_cons]
        by_cases h1 : k0 = k'
        · have h2 : ¬ k' = k := by
            rw [← h1]
            exact fun hh => h0 hh
          simp [h1, h2]
        · by_cases h2 : k' = k <;> simp [h1, h2, h0]

theorem lookup_Delete (m : Store K V) (ks : List K) (k : K) :
    lookup (Delete m ks) k = if k ∈ ks then none else lookup m k := by
  induction ks generalizing m with
  | nil => simp [Delete]
  | cons k0 rest ih =>
      have : Delete m (k0 :: rest) = Delete (deleteKey m k0) rest := rfl
      rw [this, ih]
      by_cases h : k = k0
      · simp [h, lookup_deleteKey]
      · by_cases hr : k ∈ rest <;> simp [h, hr, lookup_deleteKey]

/-! ### Merge lemmas -/

theorem mergeLoop_nil (dst : Store K V) (ow : Bool) :
    mergeLoop dst [] ow = dst := rfl

theorem Merge_eq_mergeLoop (dst src : Store K V) (ow : Bool) :
    Merge dst src ow = mergeLoop dst src ow := by
  cases src with
  | nil => simp [Merge, mergeLoop]
  | cons p rest => simp [Merge, List.length]

theorem mergeLoop_cons (dst : Store K V) (p : K × V) (rest : Store K V) (ow : Bool) :
    mergeLoop dst (p :: rest) ow = mergeLoop (mergeStep ow dst p) rest ow := rfl

/-- Keys absent from the source are untouched by the merge loop. -/
theorem lookup_mergeLoop_not_mem (dst src : Store K V) (ow : Bool) (k : K)
    (h : k ∉ Keys src) :
    lookup (mergeLoop dst src ow) k = lookup dst k := by
  induction src generalizing dst with
  | nil => simp [mergeLoop_nil]
  | cons p rest ih =>
      obtain ⟨k0, v0⟩ := p
      have hk0 : k ≠ k0 := by
        intro hk
        exact h (by simp [Keys, hk])
      have hrest : k ∉ Keys rest := by
        intro hk
        exact h (by simp [Keys] at hk ⊢; exact Or.inr hk)
      rw [mergeLoop_cons, ih _ hrest]
      unfold mergeStep
      by_cases hstep : ow = false ∧ hasKey dst k0 = true
      · simp [hstep]
      · simp [hstep, lookup_setEntry_ne _ _ _ _ hk0]

/-- A key already present keeps its value under a non-overwriting merge. -/
theorem lookup_mergeLoop_false_present (dst src : Store K V) (k : K)
    (h : hasKey dst k = true) :
    lookup (mergeLoop dst src false) k = lookup dst k := by
  induction src generalizing dst with
  | nil => simp [mergeLoop_nil]
  | cons p rest ih =>
      obtain ⟨k0, v0⟩ := p
      rw [mergeLoop_cons]
      unfold mergeStep
      by_cases hstep : hasKey dst k0 = true
      · simpa [hstep] using ih dst h
      · have hk0 : k ≠ k0 := by
          intro hk
          rw [hk] at h
          exact absurd h (by simp [hstep])
        have h2 : hasKey (setEntry dst k0 v0) k = true := by
          unfold hasKey
          rw [lookup_setEntry_ne _ _ _ _ hk0]
          exact h
        simp only [hstep, Bool.false_eq_true, and_false, if_neg, ite_false]
        rw [ih _ h2, lookup_setEntry_ne _ _ _ _ hk0]

/-- Under an overwriting merge, every source key ends at its source value
(source keys are distinct, as they are in a Go map). -/
theorem lookup_mergeLoop_true_mem (dst src : Store K V) (k : K)
    (hwf : WF src) (h : k ∈ Keys src) :
    lookup (mergeLoop dst src true) k = lookup src k := by
  induction src generalizing dst with
  | nil => simp [Keys] at h
  | cons p rest ih =>
      obtain ⟨k0, v0⟩ := p
      have hwfr : WF rest := by
        simp [WF] at hwf ⊢
        exact hwf.2
      have hk0r : k0 ∉ Keys rest := by
        simp [WF, Keys] at hwf
        simpa [Keys] using hwf.1
      rw [mergeLoop_cons]
      by_cases hk : k = k0
      · subst hk
        rw [lookup_mergeLoop_not_mem _ _ _ _ hk0r]
        unfold mergeStep
        simp [lookup_setEntry_self, lookup_cons]
      · have hmem : k ∈ Keys rest := by
          simp [Keys] at h ⊢
          rcases h with h | h
          · exact absurd h hk
          · exact h
        rw [ih _ hwfr hmem, lookup_cons]
        have h2 : k0 ≠ k := fun hh => hk hh.symm
        simp [h2]

/-- Lemma: `New` (and hence `Clone`) reproduces the lookup table of its input. -/
theorem lookup_New (init : Store K V) (hwf : WF init) (k : K) :
    lookup (New init) k = lookup init k := by
  unfold New
  rw [Merge_eq_mergeLoop]
  by_cases h : k ∈ Keys init
  · exact lookup_mergeLoop_true_mem _ _ _ hwf h
  · rw [lookup_mergeLoop_not_mem _ _ _ _ h, lookup_nil]
    cases hl : lookup init k with
    | none => rfl
    | some v =>
        exact absurd ((hasKey_iff_mem_keys init k).1 (by simp [hasKey, hl])) h

/-! ### Copy loops: `Raw` and `Filter` -/

theorem hasKey_append_single (acc : Store K V) (k0 : K) (v0 : V) (k : K) :
    hasKey (acc ++ [(k0, v0)]) k = (hasKey acc k || decide (k0 = k)) := by
  induction acc with
  | nil =>
      by_cases h : k0 = k <;> simp [hasKey, lookup_cons, lookup_nil, h]
  | cons p rest ih =>
      obtain ⟨k1, v1⟩ := p
      by_cases h : k1 = k <;> simp [hasKey, lookup_cons, h] at ih ⊢ <;> simpa using ih

theorem foldl_setEntry_filter (cb : K → V → Bool) (m : Store K V) :
    ∀ acc : Store K V, WF m → (∀ p ∈ m, hasKey acc p.1 = false) →
    List.foldl (fun acc p => if cb p.1 p.2 then setEntry acc p.1 p.2 else acc) acc m
      = acc ++ m.filter (fun p => cb p.1 p.2) := by
  induction m with
  | nil => intro acc _ _; simp
  | cons p rest ih =>
      intro acc hwf habs
      obtain ⟨k0, v0⟩ := p
      have hwf2 : (k0 ∉ rest.map (fun p => p.1)) ∧ (rest.map (fun p => p.1)).Nodup := by
        have hc : (k0 :: rest.map (fun p => p.1)).Nodup := hwf
        exact List.nodup_cons.mp hc
      have hwfr : WF rest := hwf2.2
      have hk0r : ∀ q ∈ rest, (k0 : K) ≠ q.1 := by
        intro q hq hkq
        exact hwf2.1 (List.mem_map.mpr ⟨q, hq, hkq.symm⟩)
      have habs0 : hasKey acc k0 = false := habs (k0, v0) (by simp)
      by_cases hcb : cb k0 v0 = true
      · have hstep : setEntry acc k0 v0 = acc ++ [(k0, v0)] :=
          setEntry_of_absent _ _ _ habs0
        have habsr : ∀ q ∈ rest, hasKey (acc ++ [(k0, v0)]) q.1 = false := by
          intro q hq
          rw [hasKey_append_single]
          simp [habs q (by simp [hq]), hk0r q hq]
        simp only [List.foldl_cons, hcb, if_true, hstep]
        rw [ih _ hwfr habsr]
        simp [hcb]
      · have hcb2 : cb k0 v0 = false := by
          cases hb : cb k0 v0
          · rfl
          · exact absurd hb hcb
        simp only [List.foldl_cons, hcb2, Bool.false_eq_true, if_false]
        rw [ih _ hwfr (fun q hq => habs q (by simp [hq]))]
        simp [hcb2]

/-- On a well-formed store, `Filter` is exactly list filtering. -/
theorem Filter_eq_filter (m : Store K V) (cb : K → V → Bool) (hwf : WF m) :
    Filter m cb = m.filter (fun p => cb p.1 p.2) := by
  have := foldl_setEntry_filter cb m [] hwf (by intro p _; simp [hasKey, lookup_nil])
  simpa [Filter] using this

/-- The `Raw` copy loop agrees with filtering by the constantly-true predicate. -/
theorem Raw_eq_Filter_true (m : Store K V) :
    Raw m = Filter m (fun _ _ => true) := rfl

/-- On a well-formed store, `Raw` reproduces the store. -/
theorem Raw_eq_self (m : Store K V) (hwf : WF m) : Raw m = m := by
  rw [Raw_eq_Filter_true, Filter_eq_filter m _ hwf]
  simp

theorem getStore_setAt_ne (h : Heap K V) (r r' : Nat) (k : K) (v : V) (hne : r' ≠ r) :
    getStore (setAt h r' k v) r = getStore h r := by
  simp [getStore, setAt, List.getElem?_set_ne hne]

theorem getStore_deleteAt_ne (h : Heap K V) (r r' : Nat) (ks : List K) (hne : r' ≠ r) :
    getStore (deleteAt h r' ks) r = getStore h r := by
  simp [getStore, deleteAt, List.getElem?_set_ne hne]

theorem getStore_applyOp_ne (h : Heap K V) (r r' : Nat) (op : MOp K V) (hne : r' ≠ r) :
    getStore (applyOp h r' op) r = getStore h r := by
  cases op with
  | set k v => exact getStore_setAt_ne h r r' k v hne
  | del ks => exact getStore_deleteAt_ne h r r' ks hne

/-- Frame property: operations applied to one reference never change the
store at a different reference. -/
theorem getStore_applyOps_ne (h : Heap K V) (r r' : Nat) (ops : List (MOp K V))
    (hne : r' ≠ r) :
    getStore (applyOps h r' ops) r = getStore h r := by
  induction ops generalizing h with
  | nil => rfl
  | cons op rest ih =>
      have : applyOps h r' (op :: rest) = applyOps (applyOp h r' op) r' rest := rfl
      rw [this, ih, getStore_applyOp_ne h r r' op hne]

theorem getStore_newRef_old (h : Heap K V) (init : Store K V) (r : Nat)
    (hr : r < h.stores.length) :
    getStore (newRef h init).2 r = getStore h r := by
  simp [getStore, newRef, List.getElem?_append_left hr]

theorem getStore_newRef_new (h : Heap K V) (init : Store K V) :
    getStore (newRef h init).2 (newRef h init).1 = New init := by
  simp [getStore, newRef, List.getElem?_concat_length]

/-! ### Traversal lemmas -/

theorem sMapIter.Next_keys (it : sMapIter K V) : (it.Next).2.keys = it.keys := by
  unfold sMapIter.Next
  by_cases h : it.i ≥ (it.keys.getD []).length <;> simp [h]

theorem sMapIter.runNexts_keys (n : Nat) (it : sMapIter K V) :
    (it.runNexts n).2.keys = it.keys := by
  induction n generalizing it with
  | zero => rfl
  | succ n ih =>
      simp only [sMapIter.runNexts]
      by_cases h : (it.Next).1 = true
      · simp only [h, if_true]
        rw [ih, sMapIter.Next_keys]
      · have h2 : (it.Next).1 = false := by simpa using h
        simp only [h2, Bool.false_eq_true, if_false]
        exact sMapIter.Next_keys it

theorem rIter.next_keeps_keys (r : rIter K V) : (r.Next).2.keys = r.keys := by
  unfold rIter.Next
  by_cases h : r.i ≥ (r.keys.getD []).length <;> simp [h]

theorem rIter.runNexts_keeps_keys (n : Nat) (r : rIter K V) :
    (r.runNexts n).2.keys = r.keys := by
  induction n generalizing r with
  | zero => rfl
  | succ n ih =>
      simp only [rIter.runNexts]
      by_cases h : (r.Next).1 = true
      · simp only [h, if_true]
        rw [ih, rIter.next_keeps_keys]
      · have h2 : (r.Next).1 = false := by simpa using h
        simp only [h2, Bool.false_eq_true, if_false]
        exact rIter.next_keeps_keys r

theorem sMapIter.runNexts_spec :
    ∀ (n : Nat) (it : sMapIter K V) (ks : List K), it.keys = some ks →
      ks.length - it.i ≤ n →
      (it.runNexts n).1 = (ks.drop it.i).map (fun k => (k, (mapRead it.m k).1))
  | 0, it, ks, hk, hn => by
      have hle : ks.length ≤ it.i := Nat.sub_eq_zero_iff_le.mp (Nat.le_zero.mp hn)
      simp [sMapIter.runNexts, List.drop_eq_nil_iff.mpr hle]
  | n + 1, it, ks, hk, hn => by
      by_cases hlt : it.i < ks.length
      · have hnext : it.Next = (true,
            { it with k := (ks.getD it.i default),
                      v := (mapRead it.m (ks.getD it.i default)).1, i := it.i + 1 }) := by
          unfold sMapIter.Next
          rw [hk]
          simp [Nat.not_le.mpr hlt]
        have hih := sMapIter.runNexts_spec n
          { it with k := (ks.getD it.i default),
                    v := (mapRead it.m (ks.getD it.i default)).1, i := it.i + 1 }
          ks hk (by simp; omega)
        simp only [sMapIter.runNexts, hnext, if_true]
        simp only at hih
        rw [hih, List.drop_eq_getElem_cons hlt, List.map_cons]
        simp [List.getD_eq_getElem?_getD, List.getElem?_eq_getElem hlt]
      · have hle : ks.length ≤ it.i := Nat.not_lt.mp hlt
        have hnext : it.Next = (false, it) := by
          unfold sMapIter.Next
          rw [hk]
          simp [hle]
        simp [sMapIter.runNexts, hnext, List.drop_eq_nil_iff.mpr hle]

theorem rIter.runNexts_drop_spec :
    ∀ (n : Nat) (r : rIter K V) (ks : List K), r.keys = some ks →
      ks.length - r.i ≤ n →
      (r.runNexts n).1 = (ks.drop r.i).map (fun k => (k, (mapRead r.m k).1))
  | 0, r, ks, hk, hn => by
      have hle : ks.length ≤ r.i := Nat.sub_eq_zero_iff_le.mp (Nat.le_zero.mp hn)
      simp [rIter.runNexts, List.drop_eq_nil_iff.mpr hle]
  | n + 1, r, ks, hk, hn => by
      by_cases hlt : r.i < ks.length
      · have hnext : r.Next = (true,
            { r with k := (ks.getD r.i default),
                     v := (mapRead r.m (ks.getD r.i default)).1, i := r.i + 1 }) := by
          unfold rIter.Next
          rw [hk]
          simp [Nat.not_le.mpr hlt]
        have hih := rIter.runNexts_drop_spec n
          { r with k := (ks.getD r.i default),
                   v := (mapRead r.m (ks.getD r.i default)).1, i := r.i + 1 }
          ks hk (by simp; omega)
        simp only [rIter.runNexts, hnext, if_true]
        simp only at hih
        rw [hih, List.drop_eq_getElem_cons hlt, List.map_cons]
        simp [List.getD_eq_getElem?_getD, List.getElem?_eq_getElem hlt]
      · have hle : ks.length ≤ r.i := Nat.not_lt.mp hlt
        have hnext : r.Next = (false, r) := by
          unfold rIter.Next
          rw [hk]
          simp [hle]
        simp [rIter.runNexts, hnext, List.drop_eq_nil_iff.mpr hle]

/-- The full traversal of a live iterator lists the captured (sorted)
keys, each paired with its value in the locked backing store. -/
theorem Iter_traverse (s : Store K V) (f : Option (K → K → Bool)) :
    (Iter s f).traverse
      = (sortKeys f (Keys s)).map (fun k => (k, (mapRead s k).1)) := by
  unfold sMapIter.traverse
  exact sMapIter.runNexts_spec _ (Iter s f) (sortKeys f (Keys s)) rfl (by simp [Iter])

/-- The full traversal of a snapshot iterator lists the copied (sorted)
keys, each paired with its value in the copied store. -/
theorem RIter_traverse (s : Store K V) (f : Option (K → K → Bool)) :
    (RIter s f).traverse
      = (sortKeys f (Keys (Raw s))).map (fun k => (k, (mapRead (Raw s) k).1)) := by
  unfold rIter.traverse
  exact rIter.runNexts_drop_spec _ (RIter s f) (sortKeys f (Keys (Raw s))) rfl (by simp [RIter])

/-- On a well-formed store, pairing every key with its looked-up value
reproduces the store. -/
theorem keys_map_mapRead (m : Store K V) (hwf : WF m) :
    (Keys m).map (fun k => (k, (mapRead m k).1)) = m := by
  induction m with
  | nil => rfl
  | cons p rest ih =>
      obtain ⟨k0, v0⟩ := p
      have hwf2 : (k0 ∉ rest.map (fun p => p.1)) ∧ (rest.map (fun p => p.1)).Nodup := by
        have hc : (k0 :: rest.map (fun p => p.1)).Nodup := hwf
        exact List.nodup_cons.mp hc
      have hhead : mapRead ((k0, v0) :: rest) k0 = (v0, true) := by
        simp [mapRead, lookup_cons]
      have htail : ∀ k ∈ Keys rest,
          mapRead ((k0, v0) :: rest) k = mapRead rest k := by
        intro k hkmem
        have : k0 ≠ k := by
          intro hh
          exact hwf2.1 (by simpa [Keys, hh] using hkmem)
        simp [mapRead, lookup_cons, this]
      have ih2 := ih hwf2.2
      simp only [Keys, List.map_cons, hhead]
      have hmaps : List.map (fun k => (k, (mapRead ((k0, v0) :: rest) k).1))
            (List.map (fun p => p.1) rest)
          = List.map (fun k => (k, (mapRead rest k).1)) (List.map (fun p => p.1) rest) := by
        apply List.map_congr_left
        intro k hk
        rw [htail k (by simpa [Keys] using hk)]
      rw [hmaps]
      simp only [Keys] at ih2
      rw [ih2]

/-- The non-strict order induced by a strict weak ordering as
`fun a b => !f b a` is transitive. -/
theorem swo_le_trans {f : K → K → Bool} (hf : SWO f) :
    ∀ (a b c : K), (!f b a) = true → (!f c b) = true → (!f c a) = true := by
  intro a b c hab hbc
  simp only [Bool.not_eq_true'] at hab hbc ⊢
  by_contra hca
  have hca : f c a = true := by
    cases h : f c a
    · exact absurd h hca
    · rfl
  cases hbc2 : f b c with
  | true => exact absurd (hab ▸ hf.2.1 b c a hbc2 hca) (by simp)
  | false =>
      cases hab2 : f a b with
      | true => exact absurd (hbc ▸ hf.2.1 c a b hca hab2) (by simp)
      | false =>
          have := (hf.2.2 a b c hab2 hab hbc2 hbc).2
          exact absurd (this ▸ hca) (by simp)

/-- The induced non-strict order is total. -/
theorem swo_le_total {f : K → K → Bool} (hf : SWO f) :
    ∀ (a b : K), ((!f b a) || (!f a b)) = true := by
  intro a b
  cases hba : f b a with
  | false => simp
  | true =>
      cases hab : f a b with
      | false => simp
      | true => exact absurd (hf.2.1 a b a hab hba) (by simp [hf.1 a])

/-! ### Claim theorems -/

/-- C3: `CAS(k, v)` on a present key returns false and leaves the whole
store unchanged; on an absent key it returns true and afterwards `Get k`
yields `(v, true)`. -/
theorem cas_check_and_set (m : Store K V) (k : K) (v : V) :
    (hasKey m k = true → (CAS m k v).1 = false ∧ (CAS m k v).2 = m) ∧
    (hasKey m k = false → (CAS m k v).1 = true ∧ Get (CAS m k v).2 k = (v, true)) := by
  constructor
  · intro h
    simp [CAS, h]
  · intro h
    refine ⟨by simp [CAS, h], ?_⟩
    simp [CAS, h, Get, mapRead, lookup_setEntry_self]

/-- C3 witness: both branches at concrete inputs. -/
theorem cas_check_and_set_witness :
    ((CAS [(1, 2)] 1 5).1 = false ∧ (CAS [(1, 2)] 1 5).2 = [(1, 2)]) ∧
    ((CAS [(1, 2)] 3 7).1 = true ∧ Get (CAS [(1, 2)] 3 7).2 3 = (7, true)) :=
  ⟨(cas_check_and_set [(1, 2)] 1 5).1 (by decide),
   (cas_check_and_set [(1, 2)] 3 7).2 (by decide)⟩

/-- C4: a non-overwriting merge never changes a key already present in the
destination; an overwriting merge gives every source key its source value;
merging an empty (or absent, i.e. nil = empty) source is a no-op. -/
theorem merge_semantics (dst src : Store K V) (ow : Bool) (k : K) :
    (hasKey dst k = true → lookup (Merge dst src false) k = lookup dst k) ∧
    (WF src → k ∈ Keys src → lookup (Merge dst src true) k = lookup src k) ∧
    Merge dst [] ow = dst := by
  refine ⟨?_, ?_, rfl⟩
  · intro h
    rw [Merge_eq_mergeLoop]
    exact lookup_mergeLoop_false_present dst src k h
  · intro hwf hmem
    rw [Merge_eq_mergeLoop]
    exact lookup_mergeLoop_true_mem dst src k hwf hmem

/-- C4 witness: concrete destination `{1:10, 2:20}`, source `{1:99, 3:30}`. -/
theorem merge_semantics_witness :
    (lookup (Merge [(1, 10), (2, 20)] [(1, 99), (3, 30)] false) 1 = lookup [(1, 10), (2, 20)] 1) ∧
    (lookup (Merge [(1, 10), (2, 20)] [(1, 99), (3, 30)] true) 1 = lookup [(1, 99), (3, 30)] 1) ∧
    Merge [(1, 10), (2, 20)] ([] : Store Nat Nat) true = [(1, 10), (2, 20)] :=
  ⟨(merge_semantics [(1, 10), (2, 20)] [(1, 99), (3, 30)] true 1).1 (by decide),
   (merge_semantics [(1, 10), (2, 20)] [(1, 99), (3, 30)] true 1).2.1 (by unfold WF; decide) (by decide),
   (merge_semantics [(1, 10), (2, 20)] [(1, 99), (3, 30)] true 1).2.2⟩

/-- C7: `Filter` returns exactly the entries satisfying the predicate,
read-locked and without modifying the source; on `{1:1,3:2,5:10,8:64,9:24}`
with `v % k == 0` it yields exactly `{1:1,5:10,8:64}`. -/
theorem filter_semantics :
    (∀ (m : Store K V) (cb : K → V → Bool), WF m →
      ∀ (k : K) (v : V), ((k, v) ∈ Filter m cb ↔ ((k, v) ∈ m ∧ cb k v = true))) ∧
    (∀ (s : LMap K V) (cb : K → V → Bool), canRLock s.lock = true →
      FilterL s cb = some (Filter s.store cb, s)) ∧
    (Filter [(1, 1), (3, 2), (5, 10), (8, 64), (9, 24)]
      (fun k v => decide (v % k = 0)) = [(1, 1), (5, 10), (8, 64)]) := by
  refine ⟨?_, ?_, by decide⟩
  · intro m cb hwf k v
    rw [Filter_eq_filter m cb hwf]
    simp [List.mem_filter]
  · intro s cb hlock
    simp [FilterL, hlock]

/-- C7 witness: the membership characterization at `(5, 10)` and the
read-locked no-modification fact at a concrete map. -/
theorem filter_semantics_witness :
    (((5, 10) ∈ Filter [(1, 1), (3, 2), (5, 10), (8, 64), (9, 24)]
        (fun k v => decide (v % k = 0))) ↔
      (((5, 10) ∈ [(1, 1), (3, 2), (5, 10), (8, 64), (9, 24)]) ∧
        (fun k v => decide (v % k = 0)) 5 10 = true)) ∧
    (FilterL ⟨⟨0, false⟩, [(1, 2)]⟩ (fun k v => decide (v = k))
      = some (Filter [(1, 2)] (fun k v => decide (v = k)), ⟨⟨0, false⟩, [(1, 2)]⟩)) :=
  ⟨(filter_semantics (K := Nat) (V := Nat)).1 _ _ (by unfold WF; decide) 5 10,
   (filter_semantics (K := Nat) (V := Nat)).2.1 ⟨⟨0, false⟩, [(1, 2)]⟩ _ (by decide)⟩

theorem getStore_deleteAt_self (h : Heap K V) (r : Nat) (ks : List K)
    (hr : r < h.stores.length) :
    getStore (deleteAt h r ks) r = Delete (getStore h r) ks := by
  simp [getStore, deleteAt, List.getElem?_set_self hr]

/-- C5: `Clone` allocates a fresh reference with the same entries, and no
sequence of `Set`/`Delete` operations on either reference ever changes the
`Get` or `Len` results of the other. -/
theorem clone_independent (h : Heap K V) (r : Nat) (hr : r < h.stores.length)
    (hwf : WF (getStore h r)) :
    (cloneAt h r).1 ≠ r ∧
    (∀ k, getAt (cloneAt h r).2 (cloneAt h r).1 k = getAt (cloneAt h r).2 r k) ∧
    (∀ ops k, getAt (applyOps (cloneAt h r).2 (cloneAt h r).1 ops) r k
      = getAt (cloneAt h r).2 r k) ∧
    (∀ ops, lenAt (applyOps (cloneAt h r).2 (cloneAt h r).1 ops) r
      = lenAt (cloneAt h r).2 r) ∧
    (∀ ops k, getAt (applyOps (cloneAt h r).2 r ops) (cloneAt h r).1 k
      = getAt (cloneAt h r).2 (cloneAt h r).1 k) ∧
    (∀ ops, lenAt (applyOps (cloneAt h r).2 r ops) (cloneAt h r).1
      = lenAt (cloneAt h r).2 (cloneAt h r).1) := by
  have hne : (cloneAt h r).1 ≠ r := by
    intro he
    have hlen : h.stores.length = r := he
    exact absurd (hlen ▸ hr) (lt_irrefl r)
  have e1 : getStore (cloneAt h r).2 (cloneAt h r).1 = New (getStore h r) :=
    getStore_newRef_new h _
  have e2 : getStore (cloneAt h r).2 r = getStore h r :=
    getStore_newRef_old h _ r hr
  have hne2 : r ≠ (cloneAt h r).1 := fun he => hne he.symm
  refine ⟨hne, ?_, ?_, ?_, ?_, ?_⟩
  · intro k
    show Get (getStore (cloneAt h r).2 (cloneAt h r).1) k
        = Get (getStore (cloneAt h r).2 r) k
    rw [e1, e2]
    show mapRead (New (getStore h r)) k = mapRead (getStore h r) k
    unfold mapRead
    rw [lookup_New _ hwf k]
  · intro ops k
    show Get (getStore (applyOps (cloneAt h r).2 (cloneAt h r).1 ops) r) k
        = Get (getStore (cloneAt h r).2 r) k
    rw [getStore_applyOps_ne _ _ _ _ hne]
  · intro ops
    show Len (getStore (applyOps (cloneAt h r).2 (cloneAt h r).1 ops) r)
        = Len (getStore (cloneAt h r).2 r)
    rw [getStore_applyOps_ne _ _ _ _ hne]
  · intro ops k
    show Get (getStore (applyOps (cloneAt h r).2 r ops) (cloneAt h r).1) k
        = Get (getStore (cloneAt h r).2 (cloneAt h r).1) k
    rw [getStore_applyOps_ne _ _ _ _ hne2]
  · intro ops
    show Len (getStore (applyOps (cloneAt h r).2 r ops) (cloneAt h r).1)
        = Len (getStore (cloneAt h r).2 (cloneAt h r).1)
    rw [getStore_applyOps_ne _ _ _ _ hne2]

/-- C5 witness: a one-map heap; a `Set` and a `Delete` on the clone leave
the source's `Get` unchanged. -/
theorem clone_independent_witness :
    ((cloneAt (⟨[[(1, 10)]]⟩ : Heap Nat Nat) 0).1 ≠ 0) ∧
    (getAt (applyOps (cloneAt (⟨[[(1, 10)]]⟩ : Heap Nat Nat) 0).2
        (cloneAt (⟨[[(1, 10)]]⟩ : Heap Nat Nat) 0).1 [MOp.set 1 99, MOp.del [1]]) 0 1
      = getAt (cloneAt (⟨[[(1, 10)]]⟩ : Heap Nat Nat) 0).2 0 1) :=
  ⟨(clone_independent ⟨[[(1, 10)]]⟩ 0 (by decide) (by unfold WF; decide)).1,
   (clone_independent ⟨[[(1, 10)]]⟩ 0 (by decide) (by unfold WF; decide)).2.2.1
     [MOp.set 1 99, MOp.del [1]] 1⟩

/-- C6: a snapshot iterator taken before a `Delete` on the source still
traverses exactly the construction-time entries (its traversal is a
function of the copied store only), including every key later deleted,
while the source no longer has those keys. -/
theorem riter_snapshot_after_delete (h : Heap K V) (r : Nat) (ks : List K)
    (hr : r < h.stores.length) (hwf : WF (getStore h r)) :
    (rIter.traverse (RIter (getStore h r) none) = getStore h r) ∧
    (∀ k, k ∈ ks → (getAt (deleteAt h r ks) r k).2 = false) ∧
    (∀ k, k ∈ Keys (getStore h r) →
      k ∈ (rIter.traverse (RIter (getStore h r) none)).map Prod.fst) := by
  have htrav : rIter.traverse (RIter (getStore h r) none) = getStore h r := by
    rw [RIter_traverse, Raw_eq_self _ hwf]
    exact keys_map_mapRead _ hwf
  refine ⟨htrav, ?_, ?_⟩
  · intro k hk
    show (Get (getStore (deleteAt h r ks) r) k).2 = false
    rw [getStore_deleteAt_self h r ks hr]
    show (mapRead (Delete (getStore h r) ks) k).2 = false
    unfold mapRead
    rw [lookup_Delete]
    simp [hk]
  · intro k hk
    rw [htrav]
    simp only [Keys] at hk
    simpa using hk

/-- C6 witness: deleting key `1` from the source after taking the
snapshot; the snapshot still contains it, the source does not. -/
theorem riter_snapshot_after_delete_witness :
    (rIter.traverse (RIter (getStore (⟨[[(1, 10), (2, 20)]]⟩ : Heap Nat Nat) 0) none)
      = getStore (⟨[[(1, 10), (2, 20)]]⟩ : Heap Nat Nat) 0) ∧
    ((getAt (deleteAt (⟨[[(1, 10), (2, 20)]]⟩ : Heap Nat Nat) 0 [1]) 0 1).2 = false) ∧
    (1 ∈ (rIter.traverse (RIter (getStore (⟨[[(1, 10), (2, 20)]]⟩ : Heap Nat Nat) 0)
      none)).map Prod.fst) :=
  ⟨(riter_snapshot_after_delete ⟨[[(1, 10), (2, 20)]]⟩ 0 [1] (by decide)
      (by unfold WF; decide)).1,
   (riter_snapshot_after_delete ⟨[[(1, 10), (2, 20)]]⟩ 0 [1] (by decide)
      (by unfold WF; decide)).2.1 1 (by decide),
   (riter_snapshot_after_delete ⟨[[(1, 10), (2, 20)]]⟩ 0 [1] (by decide)
      (by unfold WF; decide)).2.2 1 (by decide)⟩

theorem sMapIter.Key_open (it : sMapIter K V) (ks : List K) (h : it.keys = some ks) :
    it.Key = (it.k, none) := by
  unfold sMapIter.Key
  rw [h]

theorem sMapIter.Val_open (it : sMapIter K V) (ks : List K) (h : it.keys = some ks) :
    it.Val = (it.v, none) := by
  unfold sMapIter.Val
  rw [h]

theorem rIter.key_open_state (r : rIter K V) (ks : List K) (h : r.keys = some ks) :
    r.Key = (r.k, none) := by
  unfold rIter.Key
  rw [h]

theorem rIter.val_open_state (r : rIter K V) (ks : List K) (h : r.keys = some ks) :
    r.Val = (r.v, none) := by
  unfold rIter.Val
  rw [h]

/-- C1 counterexample: on a fresh iterator of either kind over `{1:10}`,
`Key`/`Val` return no error even though no successful `Next` has occurred
(the claim asserts an "iterator closed" error in that situation). -/
theorem key_before_next_no_error :
    ((Iter ([(1, 10)] : Store Nat Nat) none).Key).2 = none ∧
    ((RIter ([(1, 10)] : Store Nat Nat) none).Val).2 = none :=
  ⟨rfl, rfl⟩

/-- C1 amended: for either iterator kind, `Key`/`Val` return the
"iterator closed" error exactly when the iterator has been closed; on an
open iterator — after any number of `Next` calls, including none — they
return the current cursor fields (the zero values before the first
successful `Next`) with no error. -/
theorem key_val_error_iff_closed (s : Store K V) (f : Option (K → K → Bool)) (n : Nat) :
    (((Iter s f).runNexts n).2.Key = ((((Iter s f).runNexts n).2).k, none)) ∧
    (((Iter s f).runNexts n).2.Val = ((((Iter s f).runNexts n).2).v, none)) ∧
    (((((Iter s f).runNexts n).2).Close).Key = (default, some "iterator closed")) ∧
    (((((Iter s f).runNexts n).2).Close).Val = (default, some "iterator closed")) ∧
    (((RIter s f).runNexts n).2.Key = ((((RIter s f).runNexts n).2).k, none)) ∧
    (((RIter s f).runNexts n).2.Val = ((((RIter s f).runNexts n).2).v, none)) ∧
    (((((RIter s f).runNexts n).2).Close).Key = (default, some "iterator closed")) ∧
    (((((RIter s f).runNexts n).2).Close).Val = (default, some "iterator closed")) := by
  have hks : (((Iter s f).runNexts n).2).keys = some (sortKeys f (Keys s)) := by
    rw [sMapIter.runNexts_keys]
    rfl
  have hkr : (((RIter s f).runNexts n).2).keys = some (sortKeys f (Keys (Raw s))) := by
    rw [rIter.runNexts_keeps_keys]
    rfl
  exact ⟨sMapIter.Key_open _ _ hks, sMapIter.Val_open _ _ hks, rfl, rfl,
    rIter.key_open_state _ _ hkr, rIter.val_open_state _ _ hkr, rfl, rfl⟩

/-- C2: after `Close`, `Next` (both kinds) and `Prev`/`Rewind`/`End`
(snapshot kind) all return false, and `Key`/`Val` return the
"iterator closed" error. -/
theorem closed_iterator_operations (it : sMapIter K V) (r : rIter K V) :
    (((it.Close).Next).1 = false) ∧
    (((it.Close).Key).2 = some "iterator closed") ∧
    (((it.Close).Val).2 = some "iterator closed") ∧
    (((r.Close).Next).1 = false) ∧
    (((r.Close).Prev).1 = false) ∧
    (((r.Close).Rewind).1 = false) ∧
    (((r.Close).End).1 = false) ∧
    (((r.Close).Key).2 = some "iterator closed") ∧
    (((r.Close).Val).2 = some "iterator closed") :=
  ⟨rfl, rfl, rfl, rfl, rfl, rfl, rfl, rfl, rfl⟩

/-- C9: a live iterator holds the read lock from construction, so while it
is open every write-mode operation (`Set`, `CAS`, `Delete`, and `Merge` on
a nonempty source) would block, while read-mode operations still proceed
(when no writer holds the lock); `Close` restores the lock state. -/
theorem live_iter_blocks_writers (s : LMap K V) (f : Option (K → K → Bool))
    (k : K) (v : V) (src : Store K V) (ow : Bool) (ks : List K) :
    (SetL (IterL s f).2 k v = none) ∧
    (CASL (IterL s f).2 k v = none) ∧
    (DeleteL (IterL s f).2 ks = none) ∧
    (src.length ≠ 0 → MergeL (IterL s f).2 src ow = none) ∧
    (s.lock.writer = false → GetL (IterL s f).2 k = some (Get s.store k) ∧
      LenL (IterL s f).2 = some (Len s.store)) ∧
    ((CloseL (IterL s f).2).lock = s.lock) := by
  have hw : canWLock (rLock s.lock) = false := by
    simp [canWLock, rLock]
  refine ⟨?_, ?_, ?_, ?_, ?_, ?_⟩
  · simp [SetL, IterL, hw]
  · simp [CASL, IterL, hw]
  · simp [DeleteL, IterL, hw]
  · intro hsrc
    simp [MergeL, IterL, hw, hsrc]
  · intro hwr
    constructor
    · simp [GetL, IterL, canRLock, rLock, hwr]
    · simp [LenL, IterL, canRLock, rLock, hwr]
  · show rUnlock (rLock s.lock) = s.lock
    cases s.lock
    simp [rLock, rUnlock]

/-- C9 witness: concrete map `{1:2}` with a free lock; with the live
iterator open, a nonempty `Merge` is blocked and `Get` still proceeds. -/
theorem live_iter_blocks_writers_witness :
    (MergeL (IterL (⟨⟨0, false⟩, [(1, 2)]⟩ : LMap Nat Nat) none).2 [(3, 4)] true = none) ∧
    (GetL (IterL (⟨⟨0, false⟩, [(1, 2)]⟩ : LMap Nat Nat) none).2 1 = some (Get [(1, 2)] 1)) :=
  ⟨(live_iter_blocks_writers ⟨⟨0, false⟩, [(1, 2)]⟩ none 1 0 [(3, 4)] true []).2.2.2.1
      (by decide),
   ((live_iter_blocks_writers ⟨⟨0, false⟩, [(1, 2)]⟩ none 1 0 [(3, 4)] true []).2.2.2.2.1
      rfl).1⟩

theorem rIter.nextN_state (ks : List K) :
    ∀ (n : Nat) (r : rIter K V), r.keys = some ks → r.i + n ≤ ks.length →
      ((r.nextN n).keys = some ks ∧ (r.nextN n).m = r.m ∧ (r.nextN n).i = r.i + n ∧
        (1 ≤ n → (r.nextN n).k = ks.getD (r.i + n - 1) default))
  | 0, r, hk, _ => ⟨hk, rfl, by simp [rIter.nextN], fun h => absurd h (by omega)⟩
  | n + 1, r, hk, hn => by
      obtain ⟨hk', hm', hi', hkk'⟩ := rIter.nextN_state ks n r hk (by omega)
      have hlt : (r.nextN n).i < ks.length := by omega
      have hnext : ((r.nextN n).Next) = (true, { (r.nextN n) with
          k := ks.getD (r.nextN n).i default,
          v := (mapRead (r.nextN n).m (ks.getD (r.nextN n).i default)).1,
          i := (r.nextN n).i + 1 }) := by
        unfold rIter.Next
        rw [hk']
        simp [Nat.not_le.mpr hlt]
        exact hk'.symm
      have hstep : r.nextN (n + 1) = ((r.nextN n).Next).2 := rfl
      rw [hstep, hnext]
      refine ⟨hk', hm', by simp only [hi']; omega, ?_⟩
      intro _
      have he : r.i + (n + 1) - 1 = (r.nextN n).i := by omega
      simp [he]

/-- C10: after `n ≥ 1` successful `Next` calls on a snapshot iterator the
cursor sits one past the reported element, so an immediate `Prev` returns
true and re-yields exactly the element the last `Next` reported (the
`n`-th key); `Prev` returns false precisely when no `Next` has succeeded
(cursor at 0). -/
theorem prev_after_next (s : Store K V) (f : Option (K → K → Bool)) (n : Nat)
    (hn1 : 1 ≤ n) (hn2 : n ≤ (sortKeys f (Keys (Raw s))).length) :
    (((RIter s f).nextN n).i = n) ∧
    ((((RIter s f).nextN n).Prev).1 = true) ∧
    ((((RIter s f).nextN n).Prev).2.k = ((RIter s f).nextN n).k) ∧
    ((((RIter s f).nextN n).Prev).2.k
      = (sortKeys f (Keys (Raw s))).getD (n - 1) default) ∧
    (∀ j, j ≤ (sortKeys f (Keys (Raw s))).length →
      ((((RIter s f).nextN j).Prev).1 = false ↔ j = 0)) := by
  have h0 : (RIter s f).keys = some (sortKeys f (Keys (Raw s))) := rfl
  have hi0 : (RIter s f).i = 0 := rfl
  obtain ⟨hk', hm', hi', hkk'⟩ :=
    rIter.nextN_state (sortKeys f (Keys (Raw s))) n (RIter s f) h0 (by omega)
  have hin : ((RIter s f).nextN n).i = n := by
    rw [hi', hi0]
    omega
  have hkn : ((RIter s f).nextN n).k
      = (sortKeys f (Keys (Raw s))).getD (n - 1) default := by
    rw [hkk' hn1, hi0]
    simp
  have hprev : (((RIter s f).nextN n).Prev) = (true, { ((RIter s f).nextN n) with
      i := ((RIter s f).nextN n).i - 1,
      k := (sortKeys f (Keys (Raw s))).getD (((RIter s f).nextN n).i - 1) default,
      v := (mapRead ((RIter s f).nextN n).m
        ((sortKeys f (Keys (Raw s))).getD (((RIter s f).nextN n).i - 1) default)).1 }) := by
    unfold rIter.Prev
    rw [hk']
    have : ¬ ((RIter s f).nextN n).i = 0 := by omega
    simp [this]
    exact hk'.symm
  refine ⟨hin, by rw [hprev], ?_, ?_, ?_⟩
  · rw [hprev, hkn]
    show (sortKeys f (Keys (Raw s))).getD (((RIter s f).nextN n).i - 1) default
        = (sortKeys f (Keys (Raw s))).getD (n - 1) default
    rw [hin]
  · rw [hprev]
    show (sortKeys f (Keys (Raw s))).getD (((RIter s f).nextN n).i - 1) default
        = (sortKeys f (Keys (Raw s))).getD (n - 1) default
    rw [hin]
  · intro j hj
    obtain ⟨hkj, _, hij, _⟩ :=
      rIter.nextN_state (sortKeys f (Keys (Raw s))) j (RIter s f) h0 (by omega)
    have hij2 : ((RIter s f).nextN j).i = j := by
      rw [hij, hi0]
      omega
    constructor
    · intro hfalse
      by_contra hj0
      have : (((RIter s f).nextN j).Prev).1 = true := by
        unfold rIter.Prev
        rw [hkj]
        have : ¬ ((RIter s f).nextN j).i = 0 := by omega
        simp [this]
      rw [this] at hfalse
      exact absurd hfalse (by simp)
    · intro hj0
      subst hj0
      unfold rIter.Prev
      simp [hij2]

/-- C10 witness: on a snapshot of `{1:10, 2:20}` after two successful
`Next` calls, `Prev` succeeds and re-yields the second key. -/
theorem prev_after_next_witness :
    ((((RIter ([(1, 10), (2, 20)] : Store Nat Nat) none).nextN 2).Prev).1 = true) ∧
    ((((RIter ([(1, 10), (2, 20)] : Store Nat Nat) none).nextN 2).Prev).2.k
      = ((RIter ([(1, 10), (2, 20)] : Store Nat Nat) none).nextN 2).k) :=
  ⟨(prev_after_next [(1, 10), (2, 20)] none 2 (by decide) (by decide)).2.1,
   (prev_after_next [(1, 10), (2, 20)] none 2 (by decide) (by decide)).2.2.1⟩

/-- C8 helper: the keys reported by a full live-iterator traversal are the
captured keys as sorted by the comparator. -/
theorem Iter_traverse_keys (s : Store K V) (f : Option (K → K → Bool)) :
    ((Iter s f).traverse).map Prod.fst = sortKeys f (Keys s) := by
  rw [Iter_traverse, List.map_map]
  have hcomp : (Prod.fst ∘ fun k : K => (k, (mapRead s k).1)) = id := rfl
  rw [hcomp, List.map_id]

/-- C8: with a strict-weak-order comparator, the live iterator's
`Next`/`Key` sequence is a permutation of the captured keys, sorted by the
comparator (no later key strictly precedes an earlier one), and stable:
keys comparing equal keep their snapshot-relative order. -/
theorem iter_sorted_stable (s : Store K V) (f : K → K → Bool) (hf : SWO f) :
    ((((Iter s (some f)).traverse).map Prod.fst).Perm (Keys s)) ∧
    ((((Iter s (some f)).traverse).map Prod.fst).Pairwise (fun a b => f b a = false)) ∧
    (∀ a b : K, f a b = false → f b a = false →
      List.Sublist [a, b] (Keys s) →
      List.Sublist [a, b] (((Iter s (some f)).traverse).map Prod.fst)) := by
  rw [Iter_traverse_keys]
  show ((Keys s).mergeSort (fun a b => !f b a)).Perm (Keys s) ∧ _ ∧ _
  refine ⟨List.mergeSort_perm (Keys s) _, ?_, ?_⟩
  · have hp := List.sorted_mergeSort
      (swo_le_trans hf) (swo_le_total hf) (Keys s)
    exact hp.imp (by intro a b h; simpa using h)
  · intro a b _ hba hsub
    exact List.pair_sublist_mergeSort (swo_le_trans hf) (swo_le_total hf)
      (by simp [hba]) hsub

/-- C8 witness: the comparator `a < b` is a strict weak ordering, and over
keys `{21,1,3,2,15,11}` the traversal yields exactly `[1,2,3,11,15,21]`. -/
theorem iter_sorted_stable_witness :
    SWO (fun a b : Nat => decide (a < b)) ∧
    ((Iter ([(21, 0), (1, 0), (3, 0), (2, 0), (15, 0), (11, 0)] : Store Nat Nat)
      (some (fun a b : Nat => decide (a < b)))).traverse).map Prod.fst
      = [1, 2, 3, 11, 15, 21] := by
  have hswo : SWO (fun a b : Nat => decide (a < b)) := by
    refine ⟨by simp, ?_, ?_⟩
    · intro a b c h1 h2
      simp at h1 h2 ⊢
      omega
    · intro a b c h1 h2 h3 h4
      simp at h1 h2 h3 h4 ⊢
      omega
  refine ⟨hswo, ?_⟩
  have h := iter_sorted_stable
    ([(21, 0), (1, 0), (3, 0), (2, 0), (15, 0), (11, 0)] : Store Nat Nat)
    (fun a b : Nat => decide (a < b)) hswo
  haveI : IsAntisymm Nat (fun a b : Nat => (fun a b : Nat => decide (a < b)) b a = false) := by
    constructor
    intro a b h1 h2
    simp at h1 h2
    omega
  apply List.eq_of_perm_of_sorted
    (r := fun a b : Nat => (fun a b : Nat => decide (a < b)) b a = false)
  · exact h.1.trans (by decide)
  · exact h.2.1
  · decide

end Smap
